import Mathlib

/-!
Verification of the DuskPool off-chain core (matching engine, commitment and
whitelist cryptography, proof encoding, API boundary, websocket heartbeat).

Shallow embedding notes:

* TypeScript `bigint` quantities, prices and timestamps are embedded as `Nat`,
  following the data model (quantities and prices are non-negative scaled
  integers, timestamps are `Date.now()` values).  TS `bigint` division `/ 2n`
  on non-negative values is `Nat` division.
* Poseidon (from circomlibjs) is a fixed pure function on field elements; the
  development is parametric in it (`h1`, `h2`, `h4`, `h6` arguments for the
  arities used).  `F.e` canonicalizes an integer into the BN254 scalar field,
  embedded as `% pBN254`; `F.toObject` / `F.toString` return the canonical
  least residue, so field elements are `Nat`s below `pBN254`.
* JS objects have reference identity; `Order.oid` embeds that identity so that
  "the same order" is expressible.  The matching engine keys its books by
  `assetAddress`; books of distinct assets never interact, so the state is
  modelled for one asset's pair of books (the projection of the engine state
  to a single asset).
* `Array.prototype.sort` with a consistent comparator is a stable sort
  (ECMAScript 2019); it is embedded as `List.insertionSort`, which is stable,
  with the comparator's total preorder.
-/

namespace DuskPool

/-- BN254 scalar field prime (the order of Fr), as used by circomlibjs. -/
def pBN254 : Nat :=
  21888242871839275222246405745257275088548364400416034343698204186575808495617

/-- Big-endian byte-list value: `BigInt("0x" + bytes.toString("hex"))` in the
source reads a byte buffer as a big-endian integer. -/
def bytesToNat (bs : List Nat) : Nat :=
  bs.foldl (fun acc b => acc * 256 + b) 0

/-! ## Order book and matcher (`src/matching-engine/src/index.ts`)

`PrivateOrder` carries `commitment, trader, assetAddress, side, quantity,
price, secret, nonce, timestamp, expiry, whitelistIndex`.  The matcher reads
only `side`, `quantity`, `price` and `timestamp`; the API boundary also reads
`expiry`.  The remaining fields are opaque payload for the matcher and are
not modelled.  `oid` stands for the JS object identity of the order. -/

structure Order where
  oid : Nat
  side : Nat
  quantity : Nat
  price : Nat
  timestamp : Nat
  expiry : Nat
deriving DecidableEq, Repr

/-- A `Match` record (`matchId` is a fresh random hex string and `timestamp`
is `Date.now()`; both are opaque to every claim and not modelled). -/
structure Match where
  buyOrder : Order
  sellOrder : Order
  executionPrice : Nat
  executionQuantity : Nat
deriving DecidableEq, Repr

/-- Buy-side comparator: descending price, then ascending timestamp
(`buys.sort((a, b) => a.price !== b.price ? Number(b.price - a.price) :
a.timestamp - b.timestamp)`). -/
def buyLE (a b : Order) : Prop :=
  b.price < a.price ∨ (a.price = b.price ∧ a.timestamp ≤ b.timestamp)

/-- Sell-side comparator: ascending price, then ascending timestamp. -/
def sellLE (a b : Order) : Prop :=
  a.price < b.price ∨ (a.price = b.price ∧ a.timestamp ≤ b.timestamp)

instance : DecidableRel buyLE := fun _ _ =>
  inferInstanceAs (Decidable (_ ∨ _))

instance : DecidableRel sellLE := fun _ _ =>
  inferInstanceAs (Decidable (_ ∨ _))

instance : IsTotal Order buyLE where
  total a b := by
    unfold buyLE
    rcases Nat.lt_trichotomy a.price b.price with h | h | h
    · exact Or.inr (Or.inl h)
    · rcases Nat.le_total a.timestamp b.timestamp with ht | ht
      · exact Or.inl (Or.inr ⟨h, ht⟩)
      · exact Or.inr (Or.inr ⟨h.symm, ht⟩)
    · exact Or.inl (Or.inl h)

instance : IsTrans Order buyLE where
  trans a b c hab hbc := by
    unfold buyLE at *
    rcases hab with h1 | ⟨e1, t1⟩ <;> rcases hbc with h2 | ⟨e2, t2⟩
    · exact Or.inl (h2.trans h1)
    · exact Or.inl (e2 ▸ h1)
    · exact Or.inl (e1 ▸ h2)
    · exact Or.inr ⟨e1.trans e2, t1.trans t2⟩

instance : IsTotal Order sellLE where
  total a b := by
    unfold sellLE
    rcases Nat.lt_trichotomy a.price b.price with h | h | h
    · exact Or.inl (Or.inl h)
    · rcases Nat.le_total a.timestamp b.timestamp with ht | ht
      · exact Or.inl (Or.inr ⟨h, ht⟩)
      · exact Or.inr (Or.inr ⟨h.symm, ht⟩)
    · exact Or.inr (Or.inl h)

instance : IsTrans Order sellLE where
  trans a b c hab hbc := by
    unfold sellLE at *
    rcases hab with h1 | ⟨e1, t1⟩ <;> rcases hbc with h2 | ⟨e2, t2⟩
    · exact Or.inl (h1.trans h2)
    · exact Or.inl (e2 ▸ h1)
    · exact Or.inl (e1 ▸ h2)
    · exact Or.inr ⟨e1.trans e2, t1.trans t2⟩

/-- Eligibility of a sell for a buy in the inner loop: the pass skips the
sell when `buyOrder.price < sellOrder.price` or the quantities differ. -/
def eligible (b s : Order) : Prop :=
  s.price ≤ b.price ∧ b.quantity = s.quantity

instance : ∀ b s, Decidable (eligible b s) := fun _ _ =>
  inferInstanceAs (Decidable (_ ∧ _))

/-- The emitted match: `executionPrice = (buyOrder.price + sellOrder.price) / 2n`
(TS bigint division, which on non-negative values is `Nat` division) and
`executionQuantity = buyOrder.quantity`. -/
def mkMatch (b s : Order) : Match :=
  { buyOrder := b
    sellOrder := s
    executionPrice := (b.price + s.price) / 2
    executionQuantity := b.quantity }

/-- Inner loop of a pass for one buy: scan the not-yet-claimed sells in order
and claim the first eligible one, returning it and the remaining sells.
(The TS code keeps claimed indices in `matchedSells` and skips them, which is
the same as removing a claimed sell from the list of available ones.) -/
def findSell (b : Order) : List Order → Option (Order × List Order)
  | [] => none
  | s :: rest =>
    if eligible b s then some (s, rest)
    else
      match findSell b rest with
      | some (s', rest') => some (s', s :: rest')
      | none => none

/-- Outer loop of a pass: process the sorted buys in order; a buy that finds
an eligible sell is claimed together with it (the `matchedBuys` check at the
top of the outer loop is dead code: the current index is only inserted in its
own iteration).  Returns the emitted matches and the unmatched remainder of
each book, in the order the TS `filter` leaves them. -/
def runPass : List Order → List Order → List Match × List Order × List Order
  | [], sells => ([], [], sells)
  | b :: bs, sells =>
    match findSell b sells with
    | some (s, sells') =>
      let r := runPass bs sells'
      (mkMatch b s :: r.1, r.2.1, r.2.2)
    | none =>
      let r := runPass bs sells
      (r.1, b :: r.2.1, r.2.2)

/-- `matchOrders`: early return when either book is empty, otherwise sort
both books (price-time priority) and run the greedy pass; matched orders are
removed from the books. -/
def matchOrders (buys sells : List Order) :
    List Match × List Order × List Order :=
  if buys = [] ∨ sells = [] then ([], buys, sells)
  else runPass (List.insertionSort buyLE buys) (List.insertionSort sellLE sells)

/-- Engine state for one asset: the two books, the FIFO match queue and the
completed-matches log (both receive every emitted match on emission). -/
structure EngineState where
  buys : List Order
  sells : List Order
  matchQueue : List Match
  completedMatches : List Match
deriving DecidableEq, Repr

def initEngine : EngineState := ⟨[], [], [], []⟩

/-- `submitOrder`: append the order to its side's book (`OrderSide.Buy = 0`),
then run `matchOrders` for the asset. -/
def submitOrder (st : EngineState) (o : Order) : EngineState :=
  let buys := if o.side = 0 then st.buys ++ [o] else st.buys
  let sells := if o.side = 0 then st.sells else st.sells ++ [o]
  let r := matchOrders buys sells
  { buys := r.2.1
    sells := r.2.2
    matchQueue := st.matchQueue ++ r.1
    completedMatches := st.completedMatches ++ r.1 }

/-- A whole run of the engine over a sequence of submissions. -/
def runEngine (orders : List Order) : EngineState :=
  orders.foldl submitOrder initEngine

/-! ## C1: matching exactness -/

theorem findSell_eligible {b : Order} :
    ∀ {sells s rest}, findSell b sells = some (s, rest) → eligible b s := by
  intro sells
  induction sells with
  | nil => intro s rest h; simp [findSell] at h
  | cons x xs ih =>
    intro s rest h
    by_cases hx : eligible b x
    · simp [findSell, hx] at h
      exact h.1 ▸ hx
    · simp only [findSell, if_neg hx] at h
      cases hfs : findSell b xs with
      | none => rw [hfs] at h; exact absurd h (by simp)
      | some pr =>
        rw [hfs] at h
        obtain ⟨s', rest'⟩ := pr
        simp at h
        exact h.1 ▸ ih hfs

theorem runPass_mem_exactness :
    ∀ {bs ss : List Order} {m : Match}, m ∈ (runPass bs ss).1 →
      ∃ b s, eligible b s ∧ m = mkMatch b s := by
  intro bs
  induction bs with
  | nil => intro ss m h; simp [runPass] at h
  | cons b bs ih =>
    intro ss m h
    rw [runPass] at h
    cases hfs : findSell b ss with
    | some pr =>
      obtain ⟨s, ss'⟩ := pr
      rw [hfs] at h
      simp only [List.mem_cons] at h
      rcases h with h | h
      · exact ⟨b, s, findSell_eligible hfs, h⟩
      · exact ih h
    | none =>
      rw [hfs] at h
      exact ih h

theorem matchOrders_mem_exactness {buys sells : List Order} {m : Match}
    (h : m ∈ (matchOrders buys sells).1) :
    ∃ b s, eligible b s ∧ m = mkMatch b s := by
  unfold matchOrders at h
  split at h
  · simp at h
  · exact runPass_mem_exactness h

theorem foldl_submitOrder_completed {P : Match → Prop}
    (hP : ∀ b s, eligible b s → P (mkMatch b s)) :
    ∀ (orders : List Order) (st : EngineState),
      (∀ m ∈ st.completedMatches, P m) →
      ∀ m ∈ (orders.foldl submitOrder st).completedMatches, P m := by
  intro orders
  induction orders with
  | nil => intro st hst m hm; exact hst m hm
  | cons o os ih =>
    intro st hst m hm
    refine ih (submitOrder st o) ?_ m hm
    intro m' hm'
    simp only [submitOrder, List.mem_append] at hm'
    rcases hm' with hm' | hm'
    · exact hst m' hm'
    · obtain ⟨b, s, he, rfl⟩ := matchOrders_mem_exactness hm'
      exact hP b s he

/-- C1.  Every match emitted over any sequence of submitted orders pairs a
buy and a sell of equal quantity with `sellOrder.price ≤ buyOrder.price`, and
carries `executionPrice = (buyOrder.price + sellOrder.price) / 2` (integer
floor division) and `executionQuantity = buyOrder.quantity`. -/
theorem c1_matching_exactness (orders : List Order) (m : Match)
    (hm : m ∈ (runEngine orders).completedMatches) :
    m.buyOrder.quantity = m.sellOrder.quantity ∧
    m.sellOrder.price ≤ m.buyOrder.price ∧
    m.executionPrice = (m.buyOrder.price + m.sellOrder.price) / 2 ∧
    m.executionQuantity = m.buyOrder.quantity := by
  have := foldl_submitOrder_completed
    (P := fun m => m.buyOrder.quantity = m.sellOrder.quantity ∧
      m.sellOrder.price ≤ m.buyOrder.price ∧
      m.executionPrice = (m.buyOrder.price + m.sellOrder.price) / 2 ∧
      m.executionQuantity = m.buyOrder.quantity)
    (fun b s he => ⟨he.2, he.1, rfl, rfl⟩) orders initEngine
    (by intro m hm; simp [initEngine] at hm)
  exact this m hm

/-- Witness for C1 at a concrete run: a crossing buy (price 52) and sell
(price 48) of equal quantity 100 produce one match at price 50. -/
theorem c1_matching_exactness_witness :
    DuskPool.mkMatch ⟨1, 0, 100, 52, 10, 1000⟩ ⟨2, 1, 100, 48, 11, 1000⟩ ∈
      (runEngine [⟨1, 0, 100, 52, 10, 1000⟩, ⟨2, 1, 100, 48, 11, 1000⟩]).completedMatches ∧
    ((mkMatch ⟨1, 0, 100, 52, 10, 1000⟩ ⟨2, 1, 100, 48, 11, 1000⟩).buyOrder.quantity =
        (mkMatch ⟨1, 0, 100, 52, 10, 1000⟩ ⟨2, 1, 100, 48, 11, 1000⟩).sellOrder.quantity ∧
      (mkMatch ⟨1, 0, 100, 52, 10, 1000⟩ ⟨2, 1, 100, 48, 11, 1000⟩).sellOrder.price ≤
        (mkMatch ⟨1, 0, 100, 52, 10, 1000⟩ ⟨2, 1, 100, 48, 11, 1000⟩).buyOrder.price ∧
      (mkMatch ⟨1, 0, 100, 52, 10, 1000⟩ ⟨2, 1, 100, 48, 11, 1000⟩).executionPrice =
        ((mkMatch ⟨1, 0, 100, 52, 10, 1000⟩ ⟨2, 1, 100, 48, 11, 1000⟩).buyOrder.price +
          (mkMatch ⟨1, 0, 100, 52, 10, 1000⟩ ⟨2, 1, 100, 48, 11, 1000⟩).sellOrder.price) / 2 ∧
      (mkMatch ⟨1, 0, 100, 52, 10, 1000⟩ ⟨2, 1, 100, 48, 11, 1000⟩).executionQuantity =
        (mkMatch ⟨1, 0, 100, 52, 10, 1000⟩ ⟨2, 1, 100, 48, 11, 1000⟩).buyOrder.quantity) :=
  ⟨by decide, c1_matching_exactness
    [⟨1, 0, 100, 52, 10, 1000⟩, ⟨2, 1, 100, 48, 11, 1000⟩]
    (mkMatch ⟨1, 0, 100, 52, 10, 1000⟩ ⟨2, 1, 100, 48, 11, 1000⟩) (by decide)⟩

/-! ## C2: no double-spend -/

theorem findSell_perm {b s : Order} :
    ∀ {ss rest : List Order}, findSell b ss = some (s, rest) → ss.Perm (s :: rest) := by
  intro ss
  induction ss with
  | nil => intro rest h; simp [findSell] at h
  | cons x xs ih =>
    intro rest h
    by_cases hx : eligible b x
    · simp [findSell, hx] at h
      exact h.1 ▸ h.2 ▸ List.Perm.refl _
    · simp only [findSell, if_neg hx] at h
      cases hfs : findSell b xs with
      | none => rw [hfs] at h; exact absurd h (by simp)
      | some pr =>
        rw [hfs] at h
        obtain ⟨s', rest'⟩ := pr
        simp at h
        obtain ⟨h1, h2⟩ := h
        subst h1
        subst h2
        exact ((ih hfs).cons x).trans (List.Perm.swap _ _ _)

theorem runPass_perm_buys :
    ∀ (bs ss : List Order),
      ((runPass bs ss).1.map Match.buyOrder ++ (runPass bs ss).2.1).Perm bs := by
  intro bs
  induction bs with
  | nil => intro ss; simp [runPass]
  | cons b bs ih =>
    intro ss
    rw [runPass]
    cases hfs : findSell b ss with
    | some pr =>
      obtain ⟨s, ss'⟩ := pr
      simpa [mkMatch] using (ih ss').cons b
    | none =>
      simpa using (List.perm_middle.trans ((ih ss).cons b))

theorem runPass_perm_sells :
    ∀ (bs ss : List Order),
      ((runPass bs ss).1.map Match.sellOrder ++ (runPass bs ss).2.2).Perm ss := by
  intro bs
  induction bs with
  | nil => intro ss; simp [runPass]
  | cons b bs ih =>
    intro ss
    rw [runPass]
    cases hfs : findSell b ss with
    | some pr =>
      obtain ⟨s, ss'⟩ := pr
      have : (s :: ((runPass bs ss').1.map Match.sellOrder ++ (runPass bs ss').2.2)).Perm
          (s :: ss') := (ih ss').cons s
      simpa [mkMatch] using this.trans (findSell_perm hfs).symm
    | none =>
      simpa using ih ss

theorem matchOrders_perm_buys (buys sells : List Order) :
    ((matchOrders buys sells).1.map Match.buyOrder ++
      (matchOrders buys sells).2.1).Perm buys := by
  unfold matchOrders
  split
  · simp
  · exact (runPass_perm_buys _ _).trans (List.perm_insertionSort buyLE buys)

theorem matchOrders_perm_sells (buys sells : List Order) :
    ((matchOrders buys sells).1.map Match.sellOrder ++
      (matchOrders buys sells).2.2).Perm sells := by
  unfold matchOrders
  split
  · simp
  · exact (runPass_perm_sells _ _).trans (List.perm_insertionSort sellLE sells)

/-- Both parties of every completed match, in emission order. -/
def slotOrders (st : EngineState) : List Order :=
  st.completedMatches.flatMap (fun m => [m.buyOrder, m.sellOrder])

/-- The order identities appearing in completed matches (two slots each). -/
def matchSlotOids (st : EngineState) : List Nat :=
  st.completedMatches.flatMap (fun m => [m.buyOrder.oid, m.sellOrder.oid])

theorem flatMap_pair_perm (l : List Match) :
    (l.flatMap fun m => [m.buyOrder, m.sellOrder]).Perm
      (l.map Match.buyOrder ++ l.map Match.sellOrder) := by
  induction l with
  | nil => simp
  | cons m l ih =>
    simp only [List.flatMap_cons, List.map_cons, List.cons_append]
    refine List.Perm.cons m.buyOrder ?_
    exact (ih.cons m.sellOrder).trans List.perm_middle.symm

/-- Conservation: the orders sitting in the two match slots of the completed
log together with the orders still on the books are exactly (as a multiset)
the orders submitted so far. -/
theorem engine_conservation :
    ∀ (orders : List Order) (st : EngineState),
      (↑(slotOrders (orders.foldl submitOrder st)) +
        ↑(orders.foldl submitOrder st).buys +
        ↑(orders.foldl submitOrder st).sells : Multiset Order) =
      ↑(slotOrders st) + ↑st.buys + ↑st.sells + ↑orders := by
  intro orders
  induction orders with
  | nil => intro st; simp
  | cons o os ih =>
    intro st
    have step :
        (↑(slotOrders (submitOrder st o)) + ↑(submitOrder st o).buys +
          ↑(submitOrder st o).sells : Multiset Order) =
        ↑(slotOrders st) + ↑st.buys + ↑st.sells + {o} := by
      set buysIn := if o.side = 0 then st.buys ++ [o] else st.buys with hbuysIn
      set sellsIn := if o.side = 0 then st.sells else st.sells ++ [o] with hsellsIn
      have hb : (↑((matchOrders buysIn sellsIn).1.map Match.buyOrder) +
          ↑(matchOrders buysIn sellsIn).2.1 : Multiset Order) = ↑buysIn := by
        rw [Multiset.coe_add, Multiset.coe_eq_coe]
        exact matchOrders_perm_buys buysIn sellsIn
      have hs : (↑((matchOrders buysIn sellsIn).1.map Match.sellOrder) +
          ↑(matchOrders buysIn sellsIn).2.2 : Multiset Order) = ↑sellsIn := by
        rw [Multiset.coe_add, Multiset.coe_eq_coe]
        exact matchOrders_perm_sells buysIn sellsIn
      have hpair : (↑((matchOrders buysIn sellsIn).1.flatMap
            fun m => [m.buyOrder, m.sellOrder]) : Multiset Order) =
          ↑((matchOrders buysIn sellsIn).1.map Match.buyOrder) +
          ↑((matchOrders buysIn sellsIn).1.map Match.sellOrder) := by
        rw [Multiset.coe_add, Multiset.coe_eq_coe]
        simpa using flatMap_pair_perm (matchOrders buysIn sellsIn).1
      have hslot : slotOrders (submitOrder st o) =
          slotOrders st ++ ((matchOrders buysIn sellsIn).1.flatMap
            fun m => [m.buyOrder, m.sellOrder]) := by
        simp [slotOrders, submitOrder, List.flatMap_append, hbuysIn, hsellsIn]
      have hbooks : (submitOrder st o).buys = (matchOrders buysIn sellsIn).2.1 ∧
          (submitOrder st o).sells = (matchOrders buysIn sellsIn).2.2 := by
        constructor <;> simp [submitOrder, hbuysIn, hsellsIn]
      rw [hslot, hbooks.1, hbooks.2, ← Multiset.coe_add, hpair]
      have lhs_eq :
          (↑(slotOrders st) +
            (↑((matchOrders buysIn sellsIn).1.map Match.buyOrder) +
              ↑((matchOrders buysIn sellsIn).1.map Match.sellOrder)) +
            ↑(matchOrders buysIn sellsIn).2.1 +
            ↑(matchOrders buysIn sellsIn).2.2 : Multiset Order) =
          ↑(slotOrders st) +
            ((↑((matchOrders buysIn sellsIn).1.map Match.buyOrder) +
              ↑(matchOrders buysIn sellsIn).2.1) +
            (↑((matchOrders buysIn sellsIn).1.map Match.sellOrder) +
              ↑(matchOrders buysIn sellsIn).2.2)) := by
        abel
      rw [lhs_eq, hb, hs]
      by_cases hside : o.side = 0
      · simp only [hbuysIn, hsellsIn, if_pos hside]
        have : (↑(st.buys ++ [o]) : Multiset Order) = ↑st.buys + {o} := by
          rw [← Multiset.coe_singleton o, Multiset.coe_add]
        rw [this]
        abel
      · simp only [hbuysIn, hsellsIn, if_neg hside]
        have : (↑(st.sells ++ [o]) : Multiset Order) = ↑st.sells + {o} := by
          rw [← Multiset.coe_singleton o, Multiset.coe_add]
        rw [this]
        abel
    calc (↑(slotOrders ((o :: os).foldl submitOrder st)) +
          ↑((o :: os).foldl submitOrder st).buys +
          ↑((o :: os).foldl submitOrder st).sells : Multiset Order)
        = ↑(slotOrders (submitOrder st o)) + ↑(submitOrder st o).buys +
            ↑(submitOrder st o).sells + ↑os := ih (submitOrder st o)
      _ = ↑(slotOrders st) + ↑st.buys + ↑st.sells + {o} + ↑os := by rw [step]
      _ = ↑(slotOrders st) + ↑st.buys + ↑st.sells + ↑(o :: os) := by
          rw [← Multiset.cons_coe o os, ← Multiset.singleton_add]
          abel

/-- C2.  If the submitted orders are pairwise distinct (distinct object
identities), then across the whole run each order occupies at most one match
slot: the list of slot identities of all completed matches has no
duplicates. -/
theorem c2_no_double_spend (orders : List Order)
    (h : (orders.map Order.oid).Nodup) :
    (matchSlotOids (runEngine orders)).Nodup := by
  have hinv' : (↑(slotOrders (runEngine orders)) + ↑(runEngine orders).buys +
      ↑(runEngine orders).sells : Multiset Order) = ↑orders := by
    simpa [slotOrders, runEngine, initEngine] using
      engine_conservation orders initEngine
  have hmap := congrArg (Multiset.map Order.oid) hinv'
  simp only [Multiset.map_add, Multiset.map_coe] at hmap
  have hnodup : ((orders.map Order.oid : List Nat) : Multiset Nat).Nodup := by
    exact (Multiset.coe_nodup).2 h
  rw [← hmap] at hnodup
  have hle : (↑((slotOrders (runEngine orders)).map Order.oid) : Multiset Nat) ≤
      ↑((slotOrders (runEngine orders)).map Order.oid) +
        ↑((runEngine orders).buys.map Order.oid) +
        ↑((runEngine orders).sells.map Order.oid) := by
    rw [add_assoc]
    exact Multiset.le_add_right _ _
  have := Multiset.nodup_of_le hle hnodup
  have heq : matchSlotOids (runEngine orders) =
      (slotOrders (runEngine orders)).map Order.oid := by
    simp [matchSlotOids, slotOrders, List.map_flatMap]
  rw [heq]
  exact (Multiset.coe_nodup).1 this

/-- Witness for C2 at a concrete run with distinct order identities. -/
theorem c2_no_double_spend_witness :
    ([⟨1, 0, 100, 52, 10, 1000⟩, ⟨2, 1, 100, 48, 11, 1000⟩,
        ⟨3, 1, 100, 47, 12, 1000⟩].map Order.oid).Nodup ∧
    (matchSlotOids (runEngine [⟨1, 0, 100, 52, 10, 1000⟩,
        ⟨2, 1, 100, 48, 11, 1000⟩, ⟨3, 1, 100, 47, 12, 1000⟩])).Nodup :=
  ⟨by decide, c2_no_double_spend
    [⟨1, 0, 100, 52, 10, 1000⟩, ⟨2, 1, 100, 48, 11, 1000⟩,
      ⟨3, 1, 100, 47, 12, 1000⟩] (by decide)⟩

/-! ## C3: matching priority -/

/-- The pass again, recording with each claim the list of sells that were
still unclaimed when the claiming buy was processed (its candidate pool). -/
def claimTrace : List Order → List Order → List (Order × Order × List Order)
  | [], _ => []
  | b :: bs, sells =>
    match findSell b sells with
    | some (s, rest) => (b, s, sells) :: claimTrace bs rest
    | none => claimTrace bs sells

theorem claimTrace_matches :
    ∀ (bs ss : List Order),
      (claimTrace bs ss).map (fun t => mkMatch t.1 t.2.1) = (runPass bs ss).1 := by
  intro bs
  induction bs with
  | nil => intro ss; simp [claimTrace, runPass]
  | cons b bs ih =>
    intro ss
    rw [claimTrace, runPass]
    cases hfs : findSell b ss with
    | some pr =>
      obtain ⟨s, ss'⟩ := pr
      simpa using ih ss'
    | none => simpa using ih ss

theorem claimTrace_nil_sells : ∀ bs : List Order, claimTrace bs [] = [] := by
  intro bs
  induction bs with
  | nil => rfl
  | cons b bs ih => rw [claimTrace]; simp [findSell, ih]

theorem findSell_sublist {b : Order} :
    ∀ {ss : List Order} {s : Order} {rest : List Order},
      findSell b ss = some (s, rest) → rest.Sublist ss := by
  intro ss
  induction ss with
  | nil => intro s rest h; simp [findSell] at h
  | cons x xs ih =>
    intro s rest h
    by_cases hx : eligible b x
    · simp [findSell, hx] at h
      exact h.2 ▸ (List.sublist_cons_self x xs)
    · simp only [findSell, if_neg hx] at h
      cases hfs : findSell b xs with
      | none => rw [hfs] at h; exact absurd h (by simp)
      | some pr =>
        rw [hfs] at h
        obtain ⟨s', rest'⟩ := pr
        simp at h
        exact h.2 ▸ (ih hfs).cons₂ x

theorem findSell_min {b : Order} :
    ∀ {ss : List Order} {s : Order} {rest : List Order}, List.Pairwise sellLE ss →
      findSell b ss = some (s, rest) →
      s ∈ ss ∧ eligible b s ∧
        ∀ s' ∈ ss, eligible b s' →
          s.price ≤ s'.price ∧ (s'.price = s.price → s.timestamp ≤ s'.timestamp) := by
  intro ss
  induction ss with
  | nil => intro s rest _ h; simp [findSell] at h
  | cons x xs ih =>
    intro s rest hp h
    by_cases hx : eligible b x
    · simp [findSell, hx] at h
      obtain ⟨h1, _⟩ := h
      subst h1
      refine ⟨List.mem_cons_self _ _, hx, ?_⟩
      intro s' hs' _
      rcases List.mem_cons.1 hs' with rfl | hs'
      · exact ⟨Nat.le_refl _, fun _ => Nat.le_refl _⟩
      · rcases (List.pairwise_cons.1 hp).1 s' hs' with hlt | ⟨heq, hts⟩
        · exact ⟨Nat.le_of_lt hlt, fun he => absurd (he ▸ hlt) (Nat.lt_irrefl _)⟩
        · exact ⟨Nat.le_of_eq heq, fun _ => hts⟩
    · simp only [findSell, if_neg hx] at h
      cases hfs : findSell b xs with
      | none => rw [hfs] at h; exact absurd h (by simp)
      | some pr =>
        rw [hfs] at h
        obtain ⟨s', rest'⟩ := pr
        simp at h
        obtain ⟨h1, _⟩ := h
        subst h1
        obtain ⟨hmem, hel, hmin⟩ := ih (List.pairwise_cons.1 hp).2 hfs
        refine ⟨List.mem_cons_of_mem _ hmem, hel, ?_⟩
        intro s'' hs'' he''
        rcases List.mem_cons.1 hs'' with rfl | hs''
        · exact absurd he'' hx
        · exact hmin s'' hs'' he''

theorem claimTrace_min :
    ∀ (bs ss : List Order), List.Pairwise sellLE ss →
      ∀ t ∈ claimTrace bs ss,
        t.2.1 ∈ t.2.2 ∧ eligible t.1 t.2.1 ∧
          ∀ s' ∈ t.2.2, eligible t.1 s' →
            t.2.1.price ≤ s'.price ∧
              (s'.price = t.2.1.price → t.2.1.timestamp ≤ s'.timestamp) := by
  intro bs
  induction bs with
  | nil => intro ss _ t ht; simp [claimTrace] at ht
  | cons b bs ih =>
    intro ss hp t ht
    rw [claimTrace] at ht
    cases hfs : findSell b ss with
    | some pr =>
      obtain ⟨s, rest⟩ := pr
      rw [hfs] at ht
      rcases List.mem_cons.1 ht with rfl | ht
      · exact findSell_min hp hfs
      · exact ih rest (List.Pairwise.sublist (findSell_sublist hfs) hp) t ht
    | none =>
      rw [hfs] at ht
      exact ih ss hp t ht

/-- C3.  In every matching pass the claims recorded by `claimTrace` are
exactly the emitted matches, and the sell claimed for a buy is, among the
sells still unclaimed at that moment that are eligible (price at most the
buy's price, equal quantity), one of minimum price, and of minimum timestamp
among those of that minimum price. -/
theorem c3_matching_priority (buys sells : List Order) :
    ((claimTrace (List.insertionSort buyLE buys)
        (List.insertionSort sellLE sells)).map (fun t => mkMatch t.1 t.2.1) =
      (matchOrders buys sells).1) ∧
    ∀ t ∈ claimTrace (List.insertionSort buyLE buys)
        (List.insertionSort sellLE sells),
      t.2.1 ∈ t.2.2 ∧ eligible t.1 t.2.1 ∧
        ∀ s' ∈ t.2.2, eligible t.1 s' →
          t.2.1.price ≤ s'.price ∧
            (s'.price = t.2.1.price → t.2.1.timestamp ≤ s'.timestamp) := by
  constructor
  · unfold matchOrders
    split
    · rename_i hemp
      rcases hemp with rfl | rfl
      · simp [claimTrace]
      · simp [claimTrace_nil_sells]
    · exact claimTrace_matches _ _
  · exact claimTrace_min _ _ (List.sorted_insertionSort sellLE sells)

/-- Witness for C3: a buy at 55 against sells at 50 (earlier) and 48
(later); the 48 sell is claimed, and minimality holds over the pool. -/
theorem c3_matching_priority_witness :
    ((⟨1, 0, 100, 55, 3, 99⟩ : Order), (⟨3, 1, 100, 48, 2, 99⟩ : Order),
        [(⟨3, 1, 100, 48, 2, 99⟩ : Order), ⟨2, 1, 100, 50, 1, 99⟩]) ∈
      claimTrace (List.insertionSort buyLE [⟨1, 0, 100, 55, 3, 99⟩])
        (List.insertionSort sellLE
          [⟨2, 1, 100, 50, 1, 99⟩, ⟨3, 1, 100, 48, 2, 99⟩]) ∧
    ((⟨3, 1, 100, 48, 2, 99⟩ : Order) ∈
        [(⟨3, 1, 100, 48, 2, 99⟩ : Order), ⟨2, 1, 100, 50, 1, 99⟩] ∧
      eligible ⟨1, 0, 100, 55, 3, 99⟩ ⟨3, 1, 100, 48, 2, 99⟩ ∧
      ∀ s' ∈ [(⟨3, 1, 100, 48, 2, 99⟩ : Order), ⟨2, 1, 100, 50, 1, 99⟩],
        eligible ⟨1, 0, 100, 55, 3, 99⟩ s' →
          (⟨3, 1, 100, 48, 2, 99⟩ : Order).price ≤ s'.price ∧
            (s'.price = (⟨3, 1, 100, 48, 2, 99⟩ : Order).price →
              (⟨3, 1, 100, 48, 2, 99⟩ : Order).timestamp ≤ s'.timestamp)) :=
  ⟨by decide,
    (c3_matching_priority [⟨1, 0, 100, 55, 3, 99⟩]
      [⟨2, 1, 100, 50, 1, 99⟩, ⟨3, 1, 100, 48, 2, 99⟩]).2
      (⟨1, 0, 100, 55, 3, 99⟩, ⟨3, 1, 100, 48, 2, 99⟩,
        [⟨3, 1, 100, 48, 2, 99⟩, ⟨2, 1, 100, 50, 1, 99⟩]) (by decide)⟩

/-! ## Commitment service (`src/prover/src/index.ts`)

Poseidon instances of the needed arities are parameters (`h1`, `h4`, `h6`);
`F.e` canonicalizes every hash input into Fr, embedded as `% pBN254`.
`F.toString` renders the canonical residue in decimal; it is injective, so
field outputs are embedded as the residue itself. -/

/-- `computeNullifier`: Poseidon (arity 4) of the two commitments, the
quantity and the SUM of the two secrets, each input canonicalized by `F.e`. -/
def computeNullifier (h4 : Nat → Nat → Nat → Nat → Nat)
    (buyCommitment sellCommitment quantity buyerSecret sellerSecret : Nat) : Nat :=
  h4 (buyCommitment % pBN254) (sellCommitment % pBN254) (quantity % pBN254)
    ((buyerSecret + sellerSecret) % pBN254)

/-- C5.  The nullifier is symmetric in the two secrets: they enter the hash
only through their sum. -/
theorem c5_nullifier_symmetry (h4 : Nat → Nat → Nat → Nat → Nat)
    (buyCommitment sellCommitment quantity s1 s2 : Nat) :
    computeNullifier h4 buyCommitment sellCommitment quantity s1 s2 =
      computeNullifier h4 buyCommitment sellCommitment quantity s2 s1 := by
  unfold computeNullifier
  rw [Nat.add_comm s1 s2]

/-- Result record of `generateOrderCommitment`. -/
structure OrderCommitmentRes where
  commitment : Nat
  secret : Nat
  nonce : Nat
deriving DecidableEq, Repr

/-- `generateOrderCommitment`: `secret = BigInt("0x" + randomBytes(32))` and
likewise `nonce` — the raw 32 RNG bytes read as one big-endian integer, with
NO reduction modulo the field prime; the commitment is Poseidon (arity 6) of
the `F.e`-canonicalized inputs.  The two RNG draws are parameters (byte
lists). -/
def generateOrderCommitment (h6 : Nat → Nat → Nat → Nat → Nat → Nat → Nat)
    (assetHash side quantity price : Nat) (secretDraw nonceDraw : List Nat) :
    OrderCommitmentRes :=
  let secret := bytesToNat secretDraw
  let nonce := bytesToNat nonceDraw
  { commitment := h6 (assetHash % pBN254) (side % pBN254) (quantity % pBN254)
      (price % pBN254) (nonce % pBN254) (secret % pBN254)
    secret := secret
    nonce := nonce }

/-- Counterexample for C8 as stated: with the RNG draw of 32 `0xff` bytes the
returned secret is `2^256 - 1`, which is NOT below the BN254 scalar prime
(`~2^254`); the value is returned unreduced. -/
theorem c8_counterexample :
    ¬ ((generateOrderCommitment (fun a b c d e f => a + b + c + d + e + f)
        0 0 0 0 (List.replicate 32 255) (List.replicate 32 255)).secret <
      pBN254) := by
  decide

theorem bytesToNat_foldl_lt :
    ∀ (bs : List Nat) (acc bound : Nat), acc < bound → (∀ b ∈ bs, b < 256) →
      bs.foldl (fun a b => a * 256 + b) acc < bound * 256 ^ bs.length := by
  intro bs
  induction bs with
  | nil => intro acc bound h _; simpa using h
  | cons b bs ih =>
    intro acc bound h hb
    have hstep : acc * 256 + b < bound * 256 := by
      have h1 : acc * 256 + b < acc * 256 + 256 :=
        Nat.add_lt_add_left (hb b (List.mem_cons_self _ _)) _
      have h2 : acc * 256 + 256 = (acc + 1) * 256 := by ring
      have h3 : (acc + 1) * 256 ≤ bound * 256 :=
        Nat.mul_le_mul_right _ h
      omega
    have := ih (acc * 256 + b) (bound * 256) hstep
      (fun x hx => hb x (List.mem_cons_of_mem _ hx))
    calc (b :: bs).foldl (fun a b => a * 256 + b) acc
        = bs.foldl (fun a b => a * 256 + b) (acc * 256 + b) := rfl
      _ < bound * 256 * 256 ^ bs.length := this
      _ = bound * 256 ^ (b :: bs).length := by
          rw [List.length_cons, pow_succ]
          ring

theorem bytesToNat_lt (bs : List Nat) (hb : ∀ b ∈ bs, b < 256) :
    bytesToNat bs < 256 ^ bs.length := by
  simpa using bytesToNat_foldl_lt bs 0 1 Nat.one_pos hb

/-- C8 amended.  For every RNG draw of 32 bytes, the returned secret and
nonce are the raw 256-bit big-endian values — below `2^256`, but not in
general below the BN254 prime; only the inputs to the commitment hash are
canonicalized into the field. -/
theorem c8_secret_nonce_raw_bounds
    (h6 : Nat → Nat → Nat → Nat → Nat → Nat → Nat)
    (assetHash side quantity price : Nat) (secretDraw nonceDraw : List Nat)
    (hsl : secretDraw.length = 32) (hsb : ∀ b ∈ secretDraw, b < 256)
    (hnl : nonceDraw.length = 32) (hnb : ∀ b ∈ nonceDraw, b < 256) :
    (generateOrderCommitment h6 assetHash side quantity price
        secretDraw nonceDraw).secret < 2 ^ 256 ∧
    (generateOrderCommitment h6 assetHash side quantity price
        secretDraw nonceDraw).nonce < 2 ^ 256 := by
  have hs := bytesToNat_lt secretDraw hsb
  have hn := bytesToNat_lt nonceDraw hnb
  rw [hsl] at hs
  rw [hnl] at hn
  have h256 : (256 : Nat) ^ 32 = 2 ^ 256 := by norm_num
  rw [h256] at hs hn
  exact ⟨hs, hn⟩

/-- Witness for the amended C8 at the all-`0xff` draw. -/
theorem c8_secret_nonce_raw_bounds_witness :
    (List.replicate 32 255).length = 32 ∧ (∀ b ∈ List.replicate 32 255, b < 256) ∧
    ((generateOrderCommitment (fun a b c d e f => a + b + c + d + e + f)
        0 0 0 0 (List.replicate 32 255) (List.replicate 32 255)).secret < 2 ^ 256 ∧
      (generateOrderCommitment (fun a b c d e f => a + b + c + d + e + f)
        0 0 0 0 (List.replicate 32 255) (List.replicate 32 255)).nonce < 2 ^ 256) :=
  ⟨by decide, by decide,
    c8_secret_nonce_raw_bounds (fun a b c d e f => a + b + c + d + e + f)
      0 0 0 0 (List.replicate 32 255) (List.replicate 32 255)
      (by decide) (by decide) (by decide) (by decide)⟩

/-- `hashAsset` (prover, `src/prover/src/index.ts`): the address's UTF-8
bytes read as one big-endian integer, canonicalized into Fr, then Poseidon
with arity 1; the decimal rendering is determined by the residue. -/
def hashAsset (h1 : Nat → Nat) (addrBytes : List Nat) : Nat :=
  h1 (bytesToNat addrBytes % pBN254)

/-- `hashAssetAddress` (matching engine, `src/matching-engine/src/index.ts`):
the engine's duplicated implementation of the same hash, built from the same
circomlibjs Poseidon. -/
def hashAssetAddress (h1 : Nat → Nat) (addrBytes : List Nat) : Nat :=
  h1 (bytesToNat addrBytes % pBN254)

/-- C10.  The prover's `hashAsset` and the engine's `hashAssetAddress` agree
on every asset address (same big-endian byte reading, same reduction, same
Poseidon, hence the same decimal rendering). -/
theorem c10_hash_asset_agree (h1 : Nat → Nat) (addrBytes : List Nat) :
    hashAsset h1 addrBytes = hashAssetAddress h1 addrBytes := rfl

/-! ## Whitelist tree (`buildWhitelistTree`, `src/prover/src/index.ts`) -/

/-- Circuit tree depth; must match `settlement_proof.circom`. -/
def TREE_DEPTH : Nat := 20

/-- `Math.ceil(Math.log2 m)` for a positive integer `m`: the least `d` with
`m ≤ 2 ^ d` (exact for IEEE doubles in the relevant range). -/
def ceilLog2 (m : Nat) : Nat :=
  (List.range (m + 1)).findIdx (fun d => decide (m ≤ 2 ^ d))

/-- One tree level up: hash consecutive pairs (`i += 2` loop; level lengths
are always even powers of two in `buildWhitelistTree`). -/
def hashPairs (h2 : Nat → Nat → Nat) : List Nat → List Nat
  | a :: b :: rest => h2 a b :: hashPairs h2 rest
  | _ => []

/-- `treeLevels[k]` of the dense tree built bottom-up from the padded
leaves. -/
def levelN (h2 : Nat → Nat → Nat) (leaves : List Nat) : Nat → List Nat
  | 0 => leaves
  | k + 1 => hashPairs h2 (levelN h2 leaves k)

/-- The zero ladder: `zeros[0] = 0`, `zeros[k] = Poseidon(zeros[k-1],
zeros[k-1])`. -/
def zseq (h2 : Nat → Nat → Nat) : Nat → Nat
  | 0 => 0
  | k + 1 => h2 (zseq h2 k) (zseq h2 k)

/-- The per-leaf walk up the dense tree: at each level record the sibling
hash and the left/right bit (`isRight = index % 2 === 1`, sibling at
`index - 1` or `index + 1`), then `index = floor(index / 2)`.  The first
argument counts the remaining levels. -/
def walkUp (h2 : Nat → Nat → Nat) (leaves : List Nat) :
    Nat → Nat → Nat → List (Nat × Nat)
  | 0, _, _ => []
  | k + 1, level, index =>
    let lv := levelN h2 leaves level
    if index % 2 = 1 then
      (lv.getD (index - 1) 0, 1) :: walkUp h2 leaves k (level + 1) (index / 2)
    else
      (lv.getD (index + 1) 0, 0) :: walkUp h2 leaves k (level + 1) (index / 2)

/-- Inclusion proof for one whitelist leaf. -/
structure MerkleProof where
  idHash : Nat
  pathElements : List Nat
  pathIndices : List Nat
deriving DecidableEq, Repr

/-- Result of `buildWhitelistTree`: the extended root and one proof per
participant (the TS `Map` keyed by the participant index, embedded as the
list whose `i`-th entry is the proof for index `i`). -/
structure WhitelistTree where
  root : Nat
  proofs : List MerkleProof
deriving DecidableEq, Repr

/-- `actualDepth = Math.max(1, Math.ceil(Math.log2(Math.max(2, n))))` where
`n` is the number of leaves (equal to the number of participants). -/
def denseDepth (n : Nat) : Nat := max 1 (ceilLog2 (max 2 n))

/-- The leaf layer: `leaves[i] = Poseidon([participants[i]])`, padded with
zero leaves to length `2 ^ actualDepth`. -/
def paddedLeaves (h1 : Nat → Nat) (ps : List Nat) : List Nat :=
  ps.map h1 ++ List.replicate (2 ^ denseDepth ps.length - ps.length) 0

/-- Root of the dense tree: the single entry of the top level. -/
def denseRoot (h1 : Nat → Nat) (h2 : Nat → Nat → Nat) (ps : List Nat) : Nat :=
  (levelN h2 (paddedLeaves h1 ps) (denseDepth ps.length)).getD 0 0

/-- Extend a dense root to fixed depth `TREE_DEPTH` by hashing the zero
ladder on the right (`for level in [actualDepth, TREE_DEPTH)`). -/
def extendRoot (h2 : Nat → Nat → Nat) (dd r : Nat) : Nat :=
  (List.range' dd (TREE_DEPTH - dd)).foldl
    (fun acc level => h2 acc (zseq h2 level)) r

/-- The proof emitted for participant `i`: the dense walk, then zero-subtree
siblings with index 0 for the extension levels. -/
def leafProof (h1 : Nat → Nat) (h2 : Nat → Nat → Nat) (ps : List Nat)
    (i : Nat) : MerkleProof :=
  let dd := denseDepth ps.length
  let dense := walkUp h2 (paddedLeaves h1 ps) dd 0 i
  { idHash := (paddedLeaves h1 ps).getD i 0
    pathElements := dense.map Prod.fst ++
      (List.range' dd (TREE_DEPTH - dd)).map (zseq h2)
    pathIndices := dense.map Prod.snd ++
      (List.range' dd (TREE_DEPTH - dd)).map (fun _ => 0) }

/-- `buildWhitelistTree`: leaves are `Poseidon([id])`; the dense depth is
`max(1, ceil(log2(max(2, n))))`; leaves are padded with zeros to `2 ^ d`;
the dense root is extended to depth 20 by hashing with the zero ladder on
the right; the proof map holds `leafProof i` at key `i` for each
participant. -/
def buildWhitelistTree (h1 : Nat → Nat) (h2 : Nat → Nat → Nat)
    (participants : List Nat) : WhitelistTree :=
  { root := extendRoot h2 (denseDepth participants.length)
      (denseRoot h1 h2 participants)
    proofs := (List.range participants.length).map (leafProof h1 h2 participants) }

/-- Fold a leaf hash up a Merkle path: at each step hash the accumulator on
the left (path index 0) or on the right (index 1) with the sibling. -/
def verifyPath (h2 : Nat → Nat → Nat) : Nat → List (Nat × Nat) → Nat
  | acc, [] => acc
  | acc, (sib, idx) :: rest =>
    verifyPath h2 (if idx = 0 then h2 acc sib else h2 sib acc) rest

theorem ceilLog2_pow_le (m : Nat) : m ≤ 2 ^ ceilLog2 m := by
  have hex : ∃ x ∈ List.range (m + 1), (decide (m ≤ 2 ^ x)) = true :=
    ⟨m, List.mem_range.2 (Nat.lt_succ_self m),
      by simp [Nat.le_of_lt (Nat.lt_two_pow m)]⟩
  have w := List.findIdx_lt_length_of_exists hex
  have h := @List.findIdx_getElem _ (fun d => decide (m ≤ 2 ^ d))
    (List.range (m + 1)) w
  rw [List.getElem_range] at h
  unfold ceilLog2
  exact of_decide_eq_true h

theorem ceilLog2_le {m c : Nat} (h : m ≤ 2 ^ c) : ceilLog2 m ≤ c := by
  by_contra hgt
  push_neg at hgt
  have hnot := @List.not_of_lt_findIdx _ (fun d => decide (m ≤ 2 ^ d))
    (List.range (m + 1)) c hgt
  rw [List.getElem_range] at hnot
  simp at hnot
  omega

theorem hashPairs_length (h2 : Nat → Nat → Nat) :
    ∀ L : List Nat, (hashPairs h2 L).length = L.length / 2
  | [] => rfl
  | [_] => by simp [hashPairs]
  | a :: b :: rest => by
    have := hashPairs_length h2 rest
    simp only [hashPairs, List.length_cons] at this ⊢
    omega

theorem levelN_length (h2 : Nat → Nat → Nat) (leaves : List Nat) (d : Nat)
    (hlen : leaves.length = 2 ^ d) :
    ∀ k, k ≤ d → (levelN h2 leaves k).length = 2 ^ (d - k) := by
  intro k
  induction k with
  | zero => intro _; simpa using hlen
  | succ k ih =>
    intro hk
    have hk' : k ≤ d := Nat.le_of_succ_le hk
    rw [levelN, hashPairs_length, ih hk']
    have he : d - k = (d - (k + 1)) + 1 := by omega
    rw [he, pow_succ]
    omega

theorem hashPairs_getD (h2 : Nat → Nat → Nat) :
    ∀ (L : List Nat) (j : Nat), 2 * j + 1 < L.length →
      (hashPairs h2 L).getD j 0 = h2 (L.getD (2 * j) 0) (L.getD (2 * j + 1) 0)
  | [], j, h => by simp only [List.length_nil] at h; omega
  | [_], j, h => by simp only [List.length_cons, List.length_nil] at h; omega
  | a :: b :: rest, 0, _ => by simp [hashPairs]
  | a :: b :: rest, j + 1, h => by
    have hlt : 2 * j + 1 < rest.length := by
      simp only [List.length_cons] at h; omega
    have e1 : 2 * (j + 1) = (2 * j + 1) + 1 := by ring
    rw [e1, hashPairs]
    simp only [List.getD_cons_succ]
    exact hashPairs_getD h2 rest j hlt

theorem walkUp_length (h2 : Nat → Nat → Nat) (leaves : List Nat) :
    ∀ k level index, (walkUp h2 leaves k level index).length = k := by
  intro k
  induction k with
  | zero => intro level index; rfl
  | succ k ih =>
    intro level index
    rw [walkUp]
    split <;> simp [ih]

theorem verifyPath_append (h2 : Nat → Nat → Nat) :
    ∀ (xs ys : List (Nat × Nat)) (acc : Nat),
      verifyPath h2 acc (xs ++ ys) = verifyPath h2 (verifyPath h2 acc xs) ys
  | [], _, _ => rfl
  | (sib, idx) :: xs, ys, acc => by
    rw [List.cons_append, verifyPath, verifyPath]
    exact verifyPath_append h2 xs ys _

theorem verifyPath_zeros (h2 : Nat → Nat → Nat) :
    ∀ (rs : List Nat) (acc : Nat),
      verifyPath h2 acc (rs.map (fun l => (zseq h2 l, 0))) =
        rs.foldl (fun a l => h2 a (zseq h2 l)) acc
  | [], _ => rfl
  | r :: rs, acc => by
    rw [List.map_cons, verifyPath, List.foldl_cons]
    simp only [if_pos rfl]
    exact verifyPath_zeros h2 rs _

theorem walkUp_verify (h2 : Nat → Nat → Nat) (leaves : List Nat) (d : Nat)
    (hlen : leaves.length = 2 ^ d) :
    ∀ (k level index : Nat), level + k = d → index < 2 ^ (d - level) →
      verifyPath h2 ((levelN h2 leaves level).getD index 0)
          (walkUp h2 leaves k level index) =
        (levelN h2 leaves d).getD (index / 2 ^ k) 0 := by
  intro k
  induction k with
  | zero =>
    intro level index hld _
    have hl : level = d := by omega
    subst hl
    simp [walkUp, verifyPath]
  | succ k ih =>
    intro level index hld hidx
    have hlev : level < d := by omega
    have hlvlen : (levelN h2 leaves level).length = 2 ^ (d - level) :=
      levelN_length h2 leaves d hlen level (Nat.le_of_lt hlev)
    have hpow : 2 ^ (d - level) = 2 * 2 ^ (d - (level + 1)) := by
      have he : d - level = (d - (level + 1)) + 1 := by omega
      rw [he, pow_succ]; ring
    have hidx2 : index / 2 < 2 ^ (d - (level + 1)) := by
      apply Nat.div_lt_of_lt_mul
      omega
    have hrec := ih (level + 1) (index / 2) (by omega) hidx2
    have hdiv : index / 2 / 2 ^ k = index / 2 ^ (k + 1) := by
      rw [Nat.div_div_eq_div_mul, pow_succ]
      ring_nf
    rw [walkUp]
    by_cases hpar : index % 2 = 1
    · rw [if_pos hpar, verifyPath]
      have hcomb :
          (levelN h2 leaves (level + 1)).getD (index / 2) 0 =
            h2 ((levelN h2 leaves level).getD (index - 1) 0)
              ((levelN h2 leaves level).getD index 0) := by
        have e1 : 2 * (index / 2) = index - 1 := by omega
        have e2 : 2 * (index / 2) + 1 = index := by omega
        rw [levelN, hashPairs_getD h2 _ (index / 2) (by rw [hlvlen]; omega),
          e2, e1]
      have hif :
          (if (1 : Nat) = 0 then
              h2 ((levelN h2 leaves level).getD index 0)
                ((levelN h2 leaves level).getD (index - 1) 0)
            else
              h2 ((levelN h2 leaves level).getD (index - 1) 0)
                ((levelN h2 leaves level).getD index 0)) =
            h2 ((levelN h2 leaves level).getD (index - 1) 0)
              ((levelN h2 leaves level).getD index 0) := by
        norm_num
      rw [hif, ← hcomb, hrec, hdiv]
    · rw [if_neg hpar, verifyPath]
      have hev : index % 2 = 0 := by omega
      have hcomb :
          (levelN h2 leaves (level + 1)).getD (index / 2) 0 =
            h2 ((levelN h2 leaves level).getD index 0)
              ((levelN h2 leaves level).getD (index + 1) 0) := by
        have e1 : 2 * (index / 2) = index := by omega
        rw [levelN, hashPairs_getD h2 _ (index / 2) (by rw [hlvlen]; omega), e1]
      have hif :
          (if (0 : Nat) = 0 then
              h2 ((levelN h2 leaves level).getD index 0)
                ((levelN h2 leaves level).getD (index + 1) 0)
            else
              h2 ((levelN h2 leaves level).getD (index + 1) 0)
                ((levelN h2 leaves level).getD index 0)) =
            h2 ((levelN h2 leaves level).getD index 0)
              ((levelN h2 leaves level).getD (index + 1) 0) := by
        norm_num
      rw [hif, ← hcomb, hrec, hdiv]

/-- C4.  For every participant list of length at most `2^20` and every
index `i` in it, the emitted inclusion proof for `i` has a 20-level path and
folding the emitted leaf hash upward through all 20 levels — hashing on the
left (index 0) or right (index 1) with the recorded sibling — reproduces the
emitted root. -/
theorem c4_whitelist_proofs_verify (h1 : Nat → Nat) (h2 : Nat → Nat → Nat)
    (ps : List Nat) (i : Nat) (hn : ps.length ≤ 2 ^ 20) (hi : i < ps.length) :
    ∃ pr, (buildWhitelistTree h1 h2 ps).proofs[i]? = some pr ∧
      pr.idHash = (ps.map h1).getD i 0 ∧
      pr.pathElements.length = TREE_DEPTH ∧
      pr.pathIndices.length = TREE_DEPTH ∧
      verifyPath h2 pr.idHash (pr.pathElements.zip pr.pathIndices) =
        (buildWhitelistTree h1 h2 ps).root := by
  have hmax : max 2 ps.length ≤ 2 ^ 20 := Nat.max_le.2 ⟨by norm_num, hn⟩
  have hcle : ceilLog2 (max 2 ps.length) ≤ 20 := ceilLog2_le hmax
  have hdle : denseDepth ps.length ≤ TREE_DEPTH := by
    unfold denseDepth TREE_DEPTH
    exact Nat.max_le.2 ⟨by norm_num, hcle⟩
  have hnle : ps.length ≤ 2 ^ denseDepth ps.length := by
    have ha := ceilLog2_pow_le (max 2 ps.length)
    have hb : (2 : Nat) ^ ceilLog2 (max 2 ps.length) ≤
        2 ^ denseDepth ps.length :=
      Nat.pow_le_pow_right (by norm_num) (Nat.le_max_right 1 _)
    have hcv := Nat.le_max_right 2 ps.length
    omega
  have hilt : i < 2 ^ denseDepth ps.length := Nat.lt_of_lt_of_le hi hnle
  have hlelen : (paddedLeaves h1 ps).length = 2 ^ denseDepth ps.length := by
    simp only [paddedLeaves, List.length_append, List.length_map,
      List.length_replicate]
    omega
  have hget : (buildWhitelistTree h1 h2 ps).proofs[i]? =
      some (leafProof h1 h2 ps i) := by
    unfold buildWhitelistTree
    simp [List.getElem?_range hi]
  refine ⟨leafProof h1 h2 ps i, hget, ?_, ?_, ?_, ?_⟩
  · unfold leafProof
    simp only
    rw [List.getD_eq_getElem?_getD, List.getD_eq_getElem?_getD, paddedLeaves,
      List.getElem?_append_left (by simpa using hi)]
  · unfold leafProof
    simp only [List.length_append, List.length_map, walkUp_length,
      List.length_range']
    unfold TREE_DEPTH at hdle ⊢
    omega
  · unfold leafProof
    simp only [List.length_append, List.length_map, walkUp_length,
      List.length_range']
    unfold TREE_DEPTH at hdle ⊢
    omega
  · unfold leafProof
    simp only
    rw [List.zip_append (by simp), List.zip_map', List.zip_map']
    have hzd : ((walkUp h2 (paddedLeaves h1 ps) (denseDepth ps.length) 0 i).map
        fun a => (a.1, a.2)) =
        walkUp h2 (paddedLeaves h1 ps) (denseDepth ps.length) 0 i := by
      simp
    rw [hzd, verifyPath_append]
    have hacc : (paddedLeaves h1 ps).getD i 0 =
        (levelN h2 (paddedLeaves h1 ps) 0).getD i 0 := rfl
    rw [hacc]
    rw [walkUp_verify h2 (paddedLeaves h1 ps) (denseDepth ps.length) hlelen
      (denseDepth ps.length) 0 i (by omega) (by simpa using hilt)]
    rw [Nat.div_eq_of_lt hilt]
    rw [verifyPath_zeros]
    unfold buildWhitelistTree extendRoot denseRoot
    simp only

/-- Witness for C4 on a three-participant list at index 1. -/
theorem c4_whitelist_proofs_verify_witness :
    ([3, 5, 9] : List Nat).length ≤ 2 ^ 20 ∧ 1 < ([3, 5, 9] : List Nat).length ∧
    (∃ pr, (buildWhitelistTree (fun a => a + 1) (fun a b => a + 2 * b + 1)
          [3, 5, 9]).proofs[1]? = some pr ∧
      pr.idHash = (([3, 5, 9] : List Nat).map (fun a => a + 1)).getD 1 0 ∧
      pr.pathElements.length = TREE_DEPTH ∧
      pr.pathIndices.length = TREE_DEPTH ∧
      verifyPath (fun a b => a + 2 * b + 1) pr.idHash
          (pr.pathElements.zip pr.pathIndices) =
        (buildWhitelistTree (fun a => a + 1) (fun a b => a + 2 * b + 1)
          [3, 5, 9]).root) :=
  ⟨by decide, by decide,
    c4_whitelist_proofs_verify (fun a => a + 1) (fun a b => a + 2 * b + 1)
      [3, 5, 9] 1 (by decide) (by decide)⟩

/-! ## Soroban proof encoding (`convertProofForSoroban`,
`src/prover/src/index.ts`)

Hex strings are embedded as lists of hex-digit values; byte buffers as lists
of byte values. -/

/-- Digits of `BigInt(v).toString(16)`, most significant first; the fuel
argument (instantiated with `v + 1`) bounds the recursion depth. -/
def hexDigitsAux : Nat → Nat → List Nat
  | 0, _ => []
  | fuel + 1, v =>
    if v < 16 then [v] else hexDigitsAux fuel (v / 16) ++ [v % 16]

/-- `BigInt(v).toString(16)` as a list of hex-digit values (`"0"` for 0). -/
def hexDigits (v : Nat) : List Nat := hexDigitsAux (v + 1) v

/-- `padStart(n, "0")`: left-pad with zeros up to length `n` (never
truncates). -/
def padStartZero (n : Nat) (s : List Nat) : List Nat :=
  List.replicate (n - s.length) 0 ++ s

/-- `toBytes32`: the hex rendering padded to 64 digits. -/
def toBytes32 (v : Nat) : List Nat := padStartZero 64 (hexDigits v)

/-- Node `Buffer.from(hex, "hex")`: consecutive digit pairs become bytes; a
trailing unpaired digit is dropped. -/
def hexPairsToBytes : List Nat → List Nat
  | a :: b :: rest => (16 * a + b) :: hexPairsToBytes rest
  | _ => []

/-- The canonical big-endian `k`-byte encoding of `v` (exact when
`v < 256 ^ k`). -/
def beBytes : Nat → Nat → List Nat
  | 0, _ => []
  | k + 1, v => beBytes k (v / 256) ++ [v % 256]

/-- Big-endian base-16 digits, `k` of them. -/
def beHex : Nat → Nat → List Nat
  | 0, _ => []
  | k + 1, v => beHex k (v / 16) ++ [v % 16]

/-- A snarkjs Groth16 proof: projective G1 points `[x, y, 1]` and the G2
point with Fp2 coordinate pairs `[[x0, x1], [y0, y1], [1, 0]]`. -/
structure Groth16Proof where
  pi_a : List Nat
  pi_b : List (List Nat)
  pi_c : List Nat
deriving DecidableEq, Repr

/-- G1 point to hex: `x ∥ y`, each 32 bytes. -/
def g1ToBytes (point : List Nat) : List Nat :=
  toBytes32 (point.getD 0 0) ++ toBytes32 (point.getD 1 0)

/-- G2 point to hex: Soroban expects `x1 ∥ x0 ∥ y1 ∥ y0`. -/
def g2ToBytes (point : List (List Nat)) : List Nat :=
  toBytes32 ((point.getD 0 []).getD 1 0) ++
    toBytes32 ((point.getD 0 []).getD 0 0) ++
    toBytes32 ((point.getD 1 []).getD 1 0) ++
    toBytes32 ((point.getD 1 []).getD 0 0)

/-- `convertProofForSoroban`: proof bytes `A (64) + B (128) + C (64)` and
signal bytes `4-byte length prefix + 32 bytes per signal`, both decoded from
the built hex strings. -/
def convertProofForSoroban (proof : Groth16Proof) (publicSignals : List Nat) :
    List Nat × List Nat :=
  let proofHex := g1ToBytes proof.pi_a ++ g2ToBytes proof.pi_b ++
    g1ToBytes proof.pi_c
  let lengthHex := padStartZero 8 (hexDigits publicSignals.length)
  let signalsHex := lengthHex ++ (publicSignals.map toBytes32).flatten
  (hexPairsToBytes proofHex, hexPairsToBytes signalsHex)

theorem hexDigitsAux_congr :
    ∀ (f1 f2 v : Nat), v < f1 → v < f2 →
      hexDigitsAux f1 v = hexDigitsAux f2 v
  | 0, _, v, h1, _ => absurd h1 (Nat.not_lt_zero v)
  | _ + 1, 0, v, _, h2 => absurd h2 (Nat.not_lt_zero v)
  | f1 + 1, f2 + 1, v, h1, h2 => by
    rw [hexDigitsAux, hexDigitsAux]
    by_cases hv : v < 16
    · simp [hv]
    · simp only [if_neg hv]
      have hd : v / 16 < v := Nat.div_lt_self (by omega) (by norm_num)
      rw [hexDigitsAux_congr f1 f2 (v / 16) (by omega) (by omega)]

theorem hexDigits_eq (v : Nat) :
    hexDigits v = if v < 16 then [v] else hexDigits (v / 16) ++ [v % 16] := by
  unfold hexDigits
  rw [hexDigitsAux]
  by_cases hv : v < 16
  · simp [hv]
  · simp only [if_neg hv]
    have hd : v / 16 < v := Nat.div_lt_self (by omega) (by norm_num)
    rw [hexDigitsAux_congr v (v / 16 + 1) (v / 16) (by omega)
      (Nat.lt_succ_self _)]

theorem beHex_zero : ∀ k, beHex k 0 = List.replicate k 0
  | 0 => rfl
  | k + 1 => by
    rw [beHex, Nat.zero_div, beHex_zero k, Nat.zero_mod,
      List.replicate_succ']

theorem beHex_length : ∀ k v, (beHex k v).length = k
  | 0, _ => rfl
  | k + 1, v => by
    rw [beHex]
    simp [beHex_length k]

theorem beBytes_length : ∀ k v, (beBytes k v).length = k
  | 0, _ => rfl
  | k + 1, v => by
    rw [beBytes]
    simp [beBytes_length k]

theorem beHex_eq_pad :
    ∀ (k v : Nat), v < 16 ^ (k + 1) →
      beHex (k + 1) v = padStartZero (k + 1) (hexDigits v) := by
  intro k
  induction k with
  | zero =>
    intro v hv
    rw [pow_one] at hv
    rw [beHex, beHex, Nat.mod_eq_of_lt hv, hexDigits_eq, if_pos hv]
    simp [padStartZero]
  | succ k ih =>
    intro v hv
    by_cases h16 : v < 16
    · rw [beHex, Nat.div_eq_of_lt h16, beHex_zero, Nat.mod_eq_of_lt h16,
        hexDigits_eq, if_pos h16]
      simp [padStartZero, List.replicate_succ']
    · have hdiv : v / 16 < 16 ^ (k + 1) := by
        rw [Nat.div_lt_iff_lt_mul (by norm_num)]
        calc v < 16 ^ (k + 1 + 1) := hv
          _ = 16 ^ (k + 1) * 16 := by rw [pow_succ]
      rw [beHex, ih (v / 16) hdiv, hexDigits_eq v, if_neg h16]
      unfold padStartZero
      rw [List.length_append, List.length_cons, List.length_nil]
      have he : k + 1 + 1 - ((hexDigits (v / 16)).length + (0 + 1)) =
          k + 1 - (hexDigits (v / 16)).length := by omega
      rw [he, List.append_assoc]

theorem hexPairsToBytes_append_even :
    ∀ (xs ys : List Nat), xs.length % 2 = 0 →
      hexPairsToBytes (xs ++ ys) = hexPairsToBytes xs ++ hexPairsToBytes ys
  | [], _, _ => rfl
  | [_], _, h => by simp at h
  | a :: b :: rest, ys, h => by
    rw [List.cons_append, List.cons_append, hexPairsToBytes, hexPairsToBytes,
      hexPairsToBytes_append_even rest ys
        (by simp only [List.length_cons] at h; omega), List.cons_append]

theorem hexPairs_beHex : ∀ (k v : Nat),
    hexPairsToBytes (beHex (2 * k) v) = beBytes k v
  | 0, _ => rfl
  | k + 1, v => by
    have e1 : 2 * (k + 1) = (2 * k + 1) + 1 := by ring
    rw [e1, beHex, beHex]
    have e2 : v / 16 / 16 = v / 256 := by
      rw [Nat.div_div_eq_div_mul]
    rw [e2, List.append_assoc,
      hexPairsToBytes_append_even _ _ (by simp [beHex_length])]
    rw [hexPairs_beHex k (v / 256), beBytes, List.singleton_append]
    have hm : 16 * (v / 16 % 16) + v % 16 = v % 256 := by
      have h1 : v % (16 * 16) = v % 16 + 16 * (v / 16 % 16) := Nat.mod_mul
      omega
    have e3 : hexPairsToBytes [v / 16 % 16, v % 16] = [v % 256] := by
      show [16 * (v / 16 % 16) + v % 16] = [v % 256]
      rw [hm]
    rw [e3]

theorem toBytes32_eq_beHex (v : Nat) (hv : v < 2 ^ 256) :
    toBytes32 v = beHex 64 v := by
  have hv' : v < 16 ^ (63 + 1) := by norm_num at hv ⊢; omega
  have := beHex_eq_pad 63 v hv'
  norm_num at this
  rw [toBytes32, this]

theorem hexPairs_toBytes32 (v : Nat) (hv : v < 2 ^ 256) :
    hexPairsToBytes (toBytes32 v) = beBytes 32 v := by
  rw [toBytes32_eq_beHex v hv]
  have : (64 : Nat) = 2 * 32 := by norm_num
  rw [this, hexPairs_beHex]

theorem toBytes32_length_even (v : Nat) (hv : v < 2 ^ 256) :
    (toBytes32 v).length % 2 = 0 := by
  rw [toBytes32_eq_beHex v hv, beHex_length]

theorem hexPairs_flatten_toBytes32 :
    ∀ (sigs : List Nat), (∀ s ∈ sigs, s < 2 ^ 256) →
      hexPairsToBytes (sigs.map toBytes32).flatten =
        sigs.flatMap (beBytes 32) := by
  intro sigs
  induction sigs with
  | nil => intro _; rfl
  | cons s sigs ih =>
    intro h
    rw [List.map_cons, List.flatten_cons, List.flatMap_cons,
      hexPairsToBytes_append_even _ _
        (toBytes32_length_even s (h s (List.mem_cons_self _ _))),
      hexPairs_toBytes32 s (h s (List.mem_cons_self _ _)),
      ih (fun x hx => h x (List.mem_cons_of_mem _ hx))]

theorem flatMap_beBytes32_length (sigs : List Nat) :
    (sigs.flatMap (beBytes 32)).length = 32 * sigs.length := by
  induction sigs with
  | nil => rfl
  | cons s sigs ih =>
    rw [List.flatMap_cons, List.length_append, beBytes_length, ih,
      List.length_cons]
    ring

/-- Counterexample for C6 as stated: with the single public signal `2^256`
(not an Fr residue, but allowed by the claim's quantification) the emitted
`signalsBytes` is NOT the 4-byte count followed by the signal's 32 big-endian
bytes — the 65-digit hex rendering shifts the buffer and drops a nibble. -/
theorem c6_counterexample :
    ¬ ((convertProofForSoroban
        ⟨[1, 1, 1], [[1, 1], [1, 1], [1, 0]], [1, 1, 1]⟩ [2 ^ 256]).2 =
      beBytes 4 1 ++ beBytes 32 (2 ^ 256)) := by
  decide

/-- C6 amended.  For every Groth16 proof with all eight used coordinates
below `2^256`, and every public-signal list whose entries are below `2^256`
and whose length is below `2^32`, the proof bytes are exactly the 256-byte
layout `A.x ∥ A.y ∥ B.x1 ∥ B.x0 ∥ B.y1 ∥ B.y0 ∥ C.x ∥ C.y` (32-byte
big-endian each) and the signal bytes are exactly the 4-byte big-endian
count followed by 32 big-endian bytes per signal (`4 + 32·n` bytes). -/
theorem c6_convert_proof_layout
    (ax ay bx0 bx1 by0 by1 cx cy : Nat) (signals : List Nat)
    (hax : ax < 2 ^ 256) (hay : ay < 2 ^ 256)
    (hbx0 : bx0 < 2 ^ 256) (hbx1 : bx1 < 2 ^ 256)
    (hby0 : by0 < 2 ^ 256) (hby1 : by1 < 2 ^ 256)
    (hcx : cx < 2 ^ 256) (hcy : cy < 2 ^ 256)
    (hsig : ∀ s ∈ signals, s < 2 ^ 256) (hn : signals.length < 2 ^ 32) :
    (convertProofForSoroban
        ⟨[ax, ay, 1], [[bx0, bx1], [by0, by1], [1, 0]], [cx, cy, 1]⟩
        signals).1 =
      beBytes 32 ax ++ beBytes 32 ay ++ beBytes 32 bx1 ++ beBytes 32 bx0 ++
        beBytes 32 by1 ++ beBytes 32 by0 ++ beBytes 32 cx ++ beBytes 32 cy ∧
    (convertProofForSoroban
        ⟨[ax, ay, 1], [[bx0, bx1], [by0, by1], [1, 0]], [cx, cy, 1]⟩
        signals).1.length = 256 ∧
    (convertProofForSoroban
        ⟨[ax, ay, 1], [[bx0, bx1], [by0, by1], [1, 0]], [cx, cy, 1]⟩
        signals).2 =
      beBytes 4 signals.length ++ signals.flatMap (beBytes 32) ∧
    (convertProofForSoroban
        ⟨[ax, ay, 1], [[bx0, bx1], [by0, by1], [1, 0]], [cx, cy, 1]⟩
        signals).2.length = 4 + 32 * signals.length := by
  have hpa : g1ToBytes [ax, ay, 1] = toBytes32 ax ++ toBytes32 ay := rfl
  have hpb : g2ToBytes [[bx0, bx1], [by0, by1], [1, 0]] =
      toBytes32 bx1 ++ toBytes32 bx0 ++ toBytes32 by1 ++ toBytes32 by0 := rfl
  have hpc : g1ToBytes [cx, cy, 1] = toBytes32 cx ++ toBytes32 cy := rfl
  have hp1 : (convertProofForSoroban
      ⟨[ax, ay, 1], [[bx0, bx1], [by0, by1], [1, 0]], [cx, cy, 1]⟩
      signals).1 =
      beBytes 32 ax ++ beBytes 32 ay ++ beBytes 32 bx1 ++ beBytes 32 bx0 ++
        beBytes 32 by1 ++ beBytes 32 by0 ++ beBytes 32 cx ++
        beBytes 32 cy := by
    simp only [convertProofForSoroban]
    rw [hpa, hpb, hpc]
    simp only [List.append_assoc]
    rw [hexPairsToBytes_append_even _ _ (toBytes32_length_even ax hax),
      hexPairsToBytes_append_even _ _ (toBytes32_length_even ay hay),
      hexPairsToBytes_append_even _ _ (toBytes32_length_even bx1 hbx1),
      hexPairsToBytes_append_even _ _ (toBytes32_length_even bx0 hbx0),
      hexPairsToBytes_append_even _ _ (toBytes32_length_even by1 hby1),
      hexPairsToBytes_append_even _ _ (toBytes32_length_even by0 hby0),
      hexPairsToBytes_append_even _ _ (toBytes32_length_even cx hcx),
      hexPairs_toBytes32 ax hax, hexPairs_toBytes32 ay hay,
      hexPairs_toBytes32 bx1 hbx1, hexPairs_toBytes32 bx0 hbx0,
      hexPairs_toBytes32 by1 hby1, hexPairs_toBytes32 by0 hby0,
      hexPairs_toBytes32 cx hcx, hexPairs_toBytes32 cy hcy]
  have hlenpref : padStartZero 8 (hexDigits signals.length) =
      beHex 8 signals.length := by
    have h8 : signals.length < 16 ^ (7 + 1) := by norm_num; omega
    have := beHex_eq_pad 7 signals.length h8
    norm_num at this
    rw [this]
  have hp2 : (convertProofForSoroban
      ⟨[ax, ay, 1], [[bx0, bx1], [by0, by1], [1, 0]], [cx, cy, 1]⟩
      signals).2 =
      beBytes 4 signals.length ++ signals.flatMap (beBytes 32) := by
    simp only [convertProofForSoroban]
    rw [hlenpref,
      hexPairsToBytes_append_even _ _ (by simp [beHex_length]),
      hexPairs_flatten_toBytes32 signals hsig]
    have h84 : (8 : Nat) = 2 * 4 := by norm_num
    rw [h84, hexPairs_beHex]
  refine ⟨hp1, ?_, hp2, ?_⟩
  · rw [hp1]
    simp [beBytes_length]
  · rw [hp2, List.length_append, beBytes_length, flatMap_beBytes32_length]

/-- Witness for the amended C6 at a small concrete proof and signal list. -/
theorem c6_convert_proof_layout_witness :
    (3 : Nat) < 2 ^ 256 ∧ (∀ s ∈ ([5, 7] : List Nat), s < 2 ^ 256) ∧
    ([5, 7] : List Nat).length < 2 ^ 32 ∧
    ((convertProofForSoroban
        ⟨[3, 3, 1], [[3, 3], [3, 3], [1, 0]], [3, 3, 1]⟩ [5, 7]).2 =
      beBytes 4 ([5, 7] : List Nat).length ++
        ([5, 7] : List Nat).flatMap (beBytes 32)) :=
  ⟨by decide, by decide, by decide,
    (c6_convert_proof_layout 3 3 3 3 3 3 3 3 [5, 7]
      (by decide) (by decide) (by decide) (by decide) (by decide) (by decide)
      (by decide) (by decide) (by decide) (by decide)).2.2.1⟩

/-! ## Order submission boundary (`POST /api/orders/submit`, matching-engine
order routes) -/

/-- The request body; absent fields are `none`.  Numeric order fields arrive
as decimal strings. -/
structure SubmitReq where
  commitment : Option String
  trader : Option String
  assetAddress : Option String
  side : Option Nat
  quantity : Option String
  price : Option String
  secret : Option String
  nonce : Option String
  expiry : Option Nat
  whitelistIndex : Option Nat
deriving DecidableEq, Repr

/-- JS falsiness of an optional string field: `undefined` or `""`. -/
def falsyStr : Option String → Prop
  | none => True
  | some s => s = ""

instance : ∀ o, Decidable (falsyStr o)
  | none => isTrue trivial
  | some s => inferInstanceAs (Decidable (s = ""))

/-- The handler's only validation: the required-fields presence check
(`!commitment || !trader || ... || !nonce`, and `side === undefined`). -/
def requiredMissing (r : SubmitReq) : Prop :=
  falsyStr r.commitment ∨ falsyStr r.trader ∨ falsyStr r.assetAddress ∨
    r.side = none ∨ falsyStr r.quantity ∨ falsyStr r.price ∨
    falsyStr r.secret ∨ falsyStr r.nonce

instance : ∀ r, Decidable (requiredMissing r) := fun _ =>
  inferInstanceAs (Decidable (_ ∨ _))

/-- `BigInt(s)` on a decimal digit string. -/
def decStrToNat (s : String) : Nat :=
  s.data.foldl (fun acc c => acc * 10 + (c.toNat - 48)) 0

/-- The static trader-address → whitelist-index test map. -/
def traderWhitelistMap (t : String) : Option Nat :=
  if t = "GAWA7FFL4ETAAHS65SBLK7GIJQSAYONUNQAG63USUUPYIK7EMHO7DQQ6" then some 0
  else if t = "GCI2MA57GAKNKFL34Z6BFWHPNQ42HY4CPF3LPTPH7CCQMV7FY566M7WI" then some 1
  else none

/-- `getWhitelistIndex`: the static map first, else `providedIndex || 0`. -/
def getWhitelistIndex (t : String) (provided : Option Nat) : Nat :=
  match traderWhitelistMap t with
  | some i => i
  | none => provided.getD 0

/-- Outcome of the submit endpoint: HTTP 400 on missing fields, else the
order goes to the engine. -/
inductive SubmitOutcome
  | rejected
  | accepted
deriving DecidableEq, Repr

/-- The order the handler builds from a complete request: `BigInt` parses,
server-assigned `timestamp = now`, `expiry = expiry || now + 3600000` (JS
falsiness: absent or `0`), and a fresh object identity `oid`. -/
def builtOrder (req : SubmitReq) (now oid : Nat) : Order :=
  { oid := oid
    side := req.side.getD 0
    quantity := decStrToNat (req.quantity.getD "")
    price := decStrToNat (req.price.getD "")
    timestamp := now
    expiry :=
      match req.expiry with
      | some e => if e = 0 then now + 3600000 else e
      | none => now + 3600000 }

/-- The `POST /api/orders/submit` handler: reject with HTTP 400 (no state
touched) when a required field is missing, otherwise build the order and
pass it to `submitOrder`.  There is NO `quantity > 0`, `price > 0` or
`expiry > now` check. -/
def handleSubmit (req : SubmitReq) (now oid : Nat) (st : EngineState) :
    SubmitOutcome × EngineState :=
  if requiredMissing req then (.rejected, st)
  else (.accepted, submitOrder st (builtOrder req now oid))

/-- Counterexample for C7 as stated: a request with `quantity = "0"`,
`price = "0"` and an expiry (5) in the past (`now = 100`) passes the
boundary — the JS string `"0"` is truthy — and the zero-quantity,
zero-price, expired order IS appended to the book. -/
theorem c7_counterexample :
    (handleSubmit
        { commitment := some "c", trader := some "t",
          assetAddress := some "a", side := some 0, quantity := some "0",
          price := some "0", secret := some "s", nonce := some "n",
          expiry := some 5, whitelistIndex := none } 100 1 initEngine).1 =
      SubmitOutcome.accepted ∧
    (handleSubmit
        { commitment := some "c", trader := some "t",
          assetAddress := some "a", side := some 0, quantity := some "0",
          price := some "0", secret := some "s", nonce := some "n",
          expiry := some 5, whitelistIndex := none } 100 1 initEngine).2.buys =
      [{ oid := 1, side := 0, quantity := 0, price := 0, timestamp := 100,
          expiry := 5 }] := by
  decide

/-- C7 amended.  The submit endpoint validates only the PRESENCE of the
required fields: a request missing one is rejected with the order-book state
untouched; a complete request is always accepted and handed to the engine,
with no `quantity > 0`, `price > 0` or `expiry > now` validation (so
zero-quantity, zero-price or expired orders do reach the book). -/
theorem c7_presence_validation_only (req : SubmitReq) (now oid : Nat)
    (st : EngineState) :
    (requiredMissing req →
      handleSubmit req now oid st = (SubmitOutcome.rejected, st)) ∧
    (¬ requiredMissing req →
      handleSubmit req now oid st =
        (SubmitOutcome.accepted, submitOrder st (builtOrder req now oid))) := by
  constructor
  · intro h
    unfold handleSubmit
    rw [if_pos h]
  · intro h
    unfold handleSubmit
    rw [if_neg h]

/-- Witness for the amended C7: both branches at concrete requests. -/
theorem c7_presence_validation_only_witness :
    (handleSubmit
        { commitment := none, trader := some "t", assetAddress := some "a",
          side := some 0, quantity := some "1", price := some "2",
          secret := some "s", nonce := some "n", expiry := none,
          whitelistIndex := none } 100 1 initEngine =
      (SubmitOutcome.rejected, initEngine)) ∧
    (handleSubmit
        { commitment := some "c", trader := some "t",
          assetAddress := some "a", side := some 0, quantity := some "1",
          price := some "2", secret := some "s", nonce := some "n",
          expiry := none, whitelistIndex := none } 100 1 initEngine =
      (SubmitOutcome.accepted,
        submitOrder initEngine (builtOrder
          { commitment := some "c", trader := some "t",
            assetAddress := some "a", side := some 0, quantity := some "1",
            price := some "2", secret := some "s", nonce := some "n",
            expiry := none, whitelistIndex := none } 100 1))) :=
  ⟨(c7_presence_validation_only _ 100 1 initEngine).1 (by decide),
    (c7_presence_validation_only _ 100 1 initEngine).2 (by decide)⟩

/-! ## WebSocket heartbeat (`src/matching-engine/src/websocket/index.ts`)

One `WSEvent.tick` is one firing of the 30-second `setInterval`; a
`WSEvent.pong` is a pong frame from the client (the `pong` listener sets
`isAlive = true`).  Real time is abstracted into this event order. -/

inductive WSEvent
  | tick
  | pong
deriving DecidableEq, Repr

/-- Per-client heartbeat state: the `isAlive` flag, whether the socket was
terminated, whether its subscriptions are still registered, and how many
pings the server has sent it. -/
structure WSClient where
  isAlive : Bool
  terminated : Bool
  subscribed : Bool
  pings : Nat
deriving DecidableEq, Repr

/-- A new connection: `isAlive = true`, subscriptions live. -/
def wsInit : WSClient :=
  { isAlive := true, terminated := false, subscribed := true, pings := 0 }

/-- One event.  On a tick, a client with `isAlive === false` is terminated
(its subscriptions removed, no ping sent); otherwise `isAlive` is cleared
and a ping is sent.  A terminated client receives no further events. -/
def wsStep (c : WSClient) : WSEvent → WSClient
  | .pong => if c.terminated then c else { c with isAlive := true }
  | .tick =>
    if c.terminated then c
    else if c.isAlive = false then
      { c with terminated := true, subscribed := false }
    else { c with isAlive := false, pings := c.pings + 1 }

/-- A client's whole history from connection. -/
def wsRun (es : List WSEvent) : WSClient := es.foldl wsStep wsInit

/-- Two heartbeat ticks with no pong between them. -/
def hbBad (es : List WSEvent) : Prop :=
  ∃ l m r, es = l ++ WSEvent.tick :: (m ++ WSEvent.tick :: r) ∧
    WSEvent.pong ∉ m

theorem wsStep_terminated {c : WSClient} (h : c.terminated = true) :
    ∀ e, (wsStep c e) = c := by
  intro e
  cases e <;> simp [wsStep, h]

theorem foldl_wsStep_terminated :
    ∀ (es : List WSEvent) (c : WSClient), c.terminated = true →
      es.foldl wsStep c = c := by
  intro es
  induction es with
  | nil => intro c _; rfl
  | cons e es ih =>
    intro c h
    rw [List.foldl_cons, wsStep_terminated h, ih c h]

theorem foldl_wsStep_dead :
    ∀ (m : List WSEvent) (c : WSClient), WSEvent.pong ∉ m →
      (c.terminated = true ∨ c.isAlive = false) →
      ((m.foldl wsStep c).terminated = true ∨
        (m.foldl wsStep c).isAlive = false) := by
  intro m
  induction m with
  | nil => intro c _ h; exact h
  | cons e es ih =>
    intro c hm h
    have he : e = WSEvent.tick := by
      cases e
      · rfl
      · exact absurd (List.mem_cons_self _ _) hm
    subst he
    rw [List.foldl_cons]
    rcases h with h | h
    · rw [wsStep_terminated h]
      exact ih c (fun hx => hm (List.mem_cons_of_mem _ hx)) (Or.inl h)
    · by_cases ht : c.terminated = true
      · rw [wsStep_terminated ht]
        exact ih c (fun hx => hm (List.mem_cons_of_mem _ hx)) (Or.inl ht)
      · have : wsStep c WSEvent.tick =
            { c with terminated := true, subscribed := false } := by
          simp [wsStep, ht, h]
        rw [this]
        exact ih _ (fun hx => hm (List.mem_cons_of_mem _ hx)) (Or.inl rfl)

theorem wsRun_subscribed :
    ∀ (es : List WSEvent) (c : WSClient),
      (c.terminated = true → c.subscribed = false) →
      ((es.foldl wsStep c).terminated = true →
        (es.foldl wsStep c).subscribed = false) := by
  intro es
  induction es with
  | nil => intro c h; exact h
  | cons e es ih =>
    intro c h
    rw [List.foldl_cons]
    refine ih (wsStep c e) ?_
    intro ht
    cases e with
    | pong =>
      by_cases hc : c.terminated = true
      · rw [wsStep_terminated hc] at ht ⊢
        exact h hc
      · simp [wsStep, hc] at ht
    | tick =>
      by_cases hc : c.terminated = true
      · rw [wsStep_terminated hc] at ht ⊢
        exact h hc
      · by_cases ha : c.isAlive = false
        · simp [wsStep, hc, ha]
        · simp [wsStep, hc, ha] at ht

theorem wsRun_append (es : List WSEvent) (e : WSEvent) :
    wsRun (es ++ [e]) = wsStep (wsRun es) e := by
  rw [wsRun, List.foldl_append, List.foldl_cons, List.foldl_nil]
  rfl

theorem wsRun_alive_false_split :
    ∀ (es : List WSEvent), (wsRun es).terminated = false →
      (wsRun es).isAlive = false →
      ∃ l m, es = l ++ WSEvent.tick :: m ∧ WSEvent.pong ∉ m := by
  intro es
  induction es using List.reverseRecOn with
  | nil => intro _ h2; simp [wsRun, wsInit] at h2
  | append_singleton es e ih =>
    intro h1 h2
    rw [wsRun_append] at h1 h2
    by_cases hc : (wsRun es).terminated = true
    · rw [wsStep_terminated hc] at h1
      exact absurd hc (by simp [h1])
    · cases e with
      | pong =>
        simp only [wsStep, if_neg hc] at h2
        simp at h2
      | tick =>
        by_cases ha : (wsRun es).isAlive = false
        · simp only [wsStep, if_neg hc, if_pos ha] at h1
          simp at h1
        · refine ⟨es, [], rfl, by simp⟩

theorem wsRun_terminated_iff_hbBad :
    ∀ (es : List WSEvent), (wsRun es).terminated = true ↔ hbBad es := by
  intro es
  constructor
  · induction es using List.reverseRecOn with
    | nil => intro h; simp [wsRun, wsInit] at h
    | append_singleton es e ih =>
      intro h
      rw [wsRun_append] at h
      by_cases hc : (wsRun es).terminated = true
      · obtain ⟨l, m, r, hsplit, hnp⟩ := ih hc
        exact ⟨l, m, r ++ [e], by rw [hsplit]; simp, hnp⟩
      · cases e with
        | pong =>
          simp only [wsStep, if_neg hc] at h
          exact absurd h (by simpa using hc)
        | tick =>
          by_cases ha : (wsRun es).isAlive = false
          · have hterm : (wsRun es).terminated = false := by
              simpa using hc
            obtain ⟨l, m, hsplit, hnp⟩ := wsRun_alive_false_split es hterm ha
            exact ⟨l, m, [], by rw [hsplit]; simp, hnp⟩
          · simp only [wsStep, if_neg hc, if_neg ha] at h
            exact absurd h hc
  · rintro ⟨l, m, r, hsplit, hnp⟩
    subst hsplit
    rw [wsRun, List.foldl_append, List.foldl_cons]
    set c0 := l.foldl wsStep wsInit with hc0
    have hdead : ((wsStep c0 WSEvent.tick).terminated = true ∨
        (wsStep c0 WSEvent.tick).isAlive = false) := by
      by_cases hc : c0.terminated = true
      · rw [wsStep_terminated hc]; exact Or.inl hc
      · by_cases ha : c0.isAlive = false
        · simp [wsStep, hc, ha]
        · simp [wsStep, hc, ha]
    rw [List.foldl_append, List.foldl_cons]
    have hdead2 := foldl_wsStep_dead m (wsStep c0 WSEvent.tick) hnp hdead
    have hterm : (wsStep (m.foldl wsStep (wsStep c0 WSEvent.tick))
        WSEvent.tick).terminated = true := by
      set c2 := m.foldl wsStep (wsStep c0 WSEvent.tick)
      rcases hdead2 with h | h
      · rw [wsStep_terminated h]; exact h
      · by_cases hc : c2.terminated = true
        · rw [wsStep_terminated hc]; exact hc
        · simp [wsStep, hc, h]
    rw [foldl_wsStep_terminated r _ hterm]
    exact hterm

/-- Counterexample for C9 as stated: from a fresh connection, two ticks with
no pong terminate the client although only ONE ping was ever sent (the
second tick terminates before pinging) — so a client that has missed only
one ping IS terminated by the heartbeat. -/
theorem c9_counterexample :
    (wsRun [WSEvent.tick, WSEvent.tick]).terminated = true ∧
    (wsRun [WSEvent.tick, WSEvent.tick]).pings = 1 := by
  decide

/-- C9 amended.  The server pings each connected client on every 30-second
tick; a client is terminated exactly when two consecutive ticks pass with no
pong in between — i.e. ONE unanswered ping suffices — and termination
releases its subscriptions.  A client that pongs after every ping is never
terminated (no pong-free tick pair exists in its history). -/
theorem c9_heartbeat_one_missed_ping (es : List WSEvent) :
    ((wsRun es).terminated = true ↔ hbBad es) ∧
    ((wsRun es).terminated = true → (wsRun es).subscribed = false) := by
  refine ⟨wsRun_terminated_iff_hbBad es, ?_⟩
  intro h
  exact wsRun_subscribed es wsInit (by intro hx; simp [wsInit] at hx) h

/-- Witness for the amended C9 on the two-tick history. -/
theorem c9_heartbeat_one_missed_ping_witness :
    hbBad [WSEvent.tick, WSEvent.tick] ∧
    (wsRun [WSEvent.tick, WSEvent.tick]).subscribed = false :=
  ⟨(c9_heartbeat_one_missed_ping [WSEvent.tick, WSEvent.tick]).1.mp
      (by decide),
    (c9_heartbeat_one_missed_ping [WSEvent.tick, WSEvent.tick]).2
      (by decide)⟩

end DuskPool
